import Mathlib

/-!
Verification of the PokeTerminal rendering core (src/display_utils.py,
src/pokedex_core.py, src/comparison_handler.py, src/move_handler.py,
src/location_handler.py, src/config.py) against its specification.

Python strings are modelled as `List Char`.  Python `int()` truncation of a
non-negative float quotient is modelled by exact natural-number division
(floor), which agrees with the source's double-precision computation on the
concrete inputs appearing below.
-/

/-- The ASCII escape character `\033` used by the terminal colour codes. -/
def escChar : Char := '\x1b'

/-- Characters allowed inside an ANSI colour sequence by the source's
regular expression `\033\[[0-9;]*m` (the class `[0-9;]`). -/
def isAnsiParam (c : Char) : Bool := c.isDigit || c = ';'

/-- Scanner for the tail of an ANSI sequence: after `\033[` has been read,
consume `[0-9;]*` and a final `m`, returning the rest of the string, or
`none` if the regular expression does not match at this position. -/
def ansiTail : List Char → Option (List Char)
  | [] => none
  | c :: rest =>
      if c = 'm' then some rest
      else if isAnsiParam c then ansiTail rest
      else none

/-- Fuelled worker for `stripAnsi`: removes every match of
`\033\[[0-9;]*m` scanning left to right, exactly as `re.sub` does in
`display_utils.py`.  The fuel is always at least the length of the input,
so the fuel-exhausted branch is never taken in `stripAnsi`. -/
def stripGo : Nat → List Char → List Char
  | 0, l => l
  | _ + 1, [] => []
  | f + 1, c :: rest =>
      if c = escChar then
        match rest with
        | '[' :: rest2 =>
            match ansiTail rest2 with
            | some rest3 => stripGo f rest3
            | none => c :: stripGo f rest
        | _ => c :: stripGo f rest
      else c :: stripGo f rest

/-- Model of `re.sub(r'\033\[[0-9;]*m', '', line)` from
`display_utils.py`: delete every ANSI colour escape sequence. -/
def stripAnsi (l : List Char) : List Char := stripGo l.length l

/-- Visible length of a line: its length once ANSI colour sequences are
removed (the `visible_length` computation of `format_bordered_content`). -/
def visibleLen (l : List Char) : Nat := (stripAnsi l).length

/-- A string that contains no ASCII escape character. -/
def noEsc (l : List Char) : Prop := ∀ c ∈ l, c ≠ escChar

instance (l : List Char) : Decidable (noEsc l) := by
  unfold noEsc; infer_instance

theorem ansiTail_length {l r : List Char} (h : ansiTail l = some r) :
    r.length < l.length := by
  induction l generalizing r with
  | nil => simp [ansiTail] at h
  | cons c rest ih =>
      simp only [ansiTail] at h
      by_cases hm : c = 'm'
      · simp [hm] at h; subst h; simp
      · by_cases hp : isAnsiParam c
        · simp [hm, hp] at h
          exact Nat.lt_trans (ih h) (by simp)
        · simp [hm, hp] at h

theorem stripGo_nil (f : Nat) : stripGo f [] = [] := by cases f <;> rfl

theorem stripGo_not_esc (f : Nat) (c : Char) (rest : List Char) (h : c ≠ escChar) :
    stripGo (f + 1) (c :: rest) = c :: stripGo f rest := by
  simp [stripGo, h]

theorem stripGo_esc_one (f : Nat) :
    stripGo (f + 1) [escChar] = escChar :: stripGo f [] := by
  simp [stripGo]

theorem stripGo_esc_other (f : Nat) (c2 : Char) (r : List Char) (h : c2 ≠ '[') :
    stripGo (f + 1) (escChar :: c2 :: r) = escChar :: stripGo f (c2 :: r) := by
  simp [stripGo, h]

theorem stripGo_esc_br_some (f : Nat) (r2 r3 : List Char) (h : ansiTail r2 = some r3) :
    stripGo (f + 1) (escChar :: '[' :: r2) = stripGo f r3 := by
  simp [stripGo, h]

theorem stripGo_esc_br_none (f : Nat) (r2 : List Char) (h : ansiTail r2 = none) :
    stripGo (f + 1) (escChar :: '[' :: r2) = escChar :: stripGo f ('[' :: r2) := by
  simp [stripGo, h]

theorem stripGo_congr_aux :
    ∀ n : Nat, ∀ l : List Char, l.length ≤ n →
      ∀ f₁ f₂, l.length ≤ f₁ → l.length ≤ f₂ →
        stripGo f₁ l = stripGo f₂ l := by
  intro n
  induction n with
  | zero =>
      intro l hl f₁ f₂ _ _
      have : l = [] := List.length_eq_zero.mp (Nat.le_zero.mp hl)
      subst this
      rw [stripGo_nil, stripGo_nil]
  | succ n ih =>
      intro l hl f₁ f₂ h1 h2
      match l with
      | [] => rw [stripGo_nil, stripGo_nil]
      | c :: rest =>
          match f₁, f₂ with
          | g₁ + 1, g₂ + 1 =>
            simp only [List.length_cons, Nat.add_le_add_iff_right] at hl h1 h2
            by_cases he : c = escChar
            · subst he
              match rest with
              | [] => rw [stripGo_esc_one, stripGo_esc_one, stripGo_nil, stripGo_nil]
              | c2 :: r2 =>
                  by_cases hbr : c2 = '['
                  · subst hbr
                    cases hta : ansiTail r2 with
                    | some r3 =>
                        rw [stripGo_esc_br_some g₁ r2 r3 hta,
                            stripGo_esc_br_some g₂ r2 r3 hta]
                        have hlen : r3.length < r2.length := ansiTail_length hta
                        simp only [List.length_cons] at hl h1 h2
                        exact ih r3 (by omega) g₁ g₂ (by omega) (by omega)
                    | none =>
                        rw [stripGo_esc_br_none g₁ r2 hta,
                            stripGo_esc_br_none g₂ r2 hta]
                        rw [ih ('[' :: r2) hl g₁ g₂ h1 h2]
                  · rw [stripGo_esc_other g₁ c2 r2 hbr, stripGo_esc_other g₂ c2 r2 hbr]
                    rw [ih (c2 :: r2) hl g₁ g₂ h1 h2]
            · rw [stripGo_not_esc g₁ c rest he, stripGo_not_esc g₂ c rest he]
              rw [ih rest hl g₁ g₂ h1 h2]

theorem stripGo_congr (l : List Char) (f₁ f₂ : Nat)
    (h1 : l.length ≤ f₁) (h2 : l.length ≤ f₂) :
    stripGo f₁ l = stripGo f₂ l :=
  stripGo_congr_aux l.length l (Nat.le_refl _) f₁ f₂ h1 h2

theorem stripAnsi_eq_go (l : List Char) (f : Nat) (h : l.length ≤ f) :
    stripAnsi l = stripGo f l :=
  stripGo_congr l l.length f (Nat.le_refl _) h

theorem isAnsiParam_ne_m {c : Char} (h : isAnsiParam c = true) : c ≠ 'm' := by
  intro he; subst he; simp [isAnsiParam] at h

theorem stripGo_of_noEsc :
    ∀ l : List Char, noEsc l → ∀ f, l.length ≤ f → stripGo f l = l := by
  intro l
  induction l with
  | nil => intro _ f _; exact stripGo_nil f
  | cons c rest ih =>
      intro h f hf
      match f, hf with
      | g + 1, hf =>
        have hc : c ≠ escChar := h c (by simp)
        rw [stripGo_not_esc g c rest hc]
        rw [ih (fun x hx => h x (by simp [hx])) g (by simpa using hf)]

theorem stripAnsi_of_noEsc (l : List Char) (h : noEsc l) : stripAnsi l = l :=
  stripGo_of_noEsc l h l.length (Nat.le_refl _)

theorem stripGo_noEsc_append :
    ∀ l : List Char, noEsc l → ∀ t : List Char, ∀ f g,
      (l ++ t).length ≤ f → t.length ≤ g →
      stripGo f (l ++ t) = l ++ stripGo g t := by
  intro l
  induction l with
  | nil =>
      intro _ t f g hf hg
      simpa using stripGo_congr t f g (by simpa using hf) hg
  | cons c rest ih =>
      intro h t f g hf hg
      match f, hf with
      | f' + 1, hf =>
        have hc : c ≠ escChar := h c (by simp)
        rw [List.cons_append, stripGo_not_esc f' c (rest ++ t) hc]
        rw [ih (fun x hx => h x (by simp [hx])) t f' g (by simpa using hf) hg]
        rfl

/-- The visible part of a string with no escape characters is itself, and it
passes through ANSI stripping of a larger string untouched. -/
theorem stripAnsi_noEsc_append (l t : List Char) (h : noEsc l) :
    stripAnsi (l ++ t) = l ++ stripAnsi t := by
  unfold stripAnsi
  exact stripGo_noEsc_append l h t (l ++ t).length t.length (Nat.le_refl _) (Nat.le_refl _)

/-- A string whose first character can neither continue nor begin an ANSI
escape sequence: appending it to a line cannot create new regex matches. -/
def blockedHead : List Char → Prop
  | [] => True
  | c :: _ => isAnsiParam c = false ∧ c ≠ 'm' ∧ c ≠ '[' ∧ c ≠ escChar

theorem ansiTail_append (r t : List Char) (ht : blockedHead t) :
    ansiTail (r ++ t) = (ansiTail r).map (fun x => x ++ t) := by
  induction r with
  | nil =>
      match t, ht with
      | [], _ => rfl
      | c :: t', ht =>
          simp only [List.nil_append, ansiTail, Option.map_none']
          rw [if_neg ht.2.1, if_neg (by simp [ht.1])]
  | cons c r' ih =>
      by_cases hm : c = 'm'
      · subst hm; simp [ansiTail]
      · by_cases hp : isAnsiParam c
        · simp only [List.cons_append, ansiTail, if_neg hm, if_pos hp]
          exact ih
        · simp [ansiTail, hm, hp]

theorem stripGo_append_blocked_aux (t : List Char) (htb : blockedHead t) (hte : noEsc t) :
    ∀ n : Nat, ∀ l : List Char, l.length ≤ n →
      ∀ f g, (l ++ t).length ≤ f → l.length ≤ g →
        stripGo f (l ++ t) = stripGo g l ++ t := by
  intro n
  induction n with
  | zero =>
      intro l hl f g hf _
      have : l = [] := List.length_eq_zero.mp (Nat.le_zero.mp hl)
      subst this
      rw [stripGo_nil]
      exact stripGo_of_noEsc t hte f (by simpa using hf)
  | succ n ih =>
      intro l hl f g hf hg
      match l with
      | [] =>
          rw [stripGo_nil]
          exact stripGo_of_noEsc t hte f (by simpa using hf)
      | c :: rest =>
          match f, g with
          | f' + 1, g' + 1 =>
            simp only [List.length_cons, Nat.add_le_add_iff_right] at hl hg
            simp only [List.cons_append, List.length_cons, List.length_append,
              Nat.add_le_add_iff_right] at hf
            by_cases he : c = escChar
            · subst he
              match rest with
              | [] =>
                  match t, htb with
                  | [], _ =>
                      rw [List.append_nil, List.append_nil]
                      exact stripGo_congr [escChar] (f' + 1) (g' + 1)
                        (by simp) (by simp)
                  | c2 :: t', htb =>
                      show stripGo (f' + 1) (escChar :: c2 :: t') =
                        stripGo (g' + 1) [escChar] ++ (c2 :: t')
                      rw [stripGo_esc_other f' c2 t' htb.2.2.1]
                      rw [stripGo_of_noEsc (c2 :: t') hte f' (by simpa using hf)]
                      rw [stripGo_esc_one, stripGo_nil]
                      rfl
              | c2 :: r2 =>
                  by_cases hbr : c2 = '['
                  · subst hbr
                    rw [List.cons_append, List.cons_append]
                    cases hta : ansiTail r2 with
                    | some r3 =>
                        have h2 : ansiTail (r2 ++ t) = some (r3 ++ t) := by
                          rw [ansiTail_append r2 t htb, hta]; rfl
                        rw [stripGo_esc_br_some f' (r2 ++ t) (r3 ++ t) h2]
                        rw [stripGo_esc_br_some g' r2 r3 hta]
                        have hlen : r3.length < r2.length := ansiTail_length hta
                        simp only [List.length_cons] at hl hf hg
                        exact ih r3 (by omega) f' g'
                          (by simp only [List.length_append]; omega) (by omega)
                    | none =>
                        have h2 : ansiTail (r2 ++ t) = none := by
                          rw [ansiTail_append r2 t htb, hta]; rfl
                        rw [stripGo_esc_br_none f' (r2 ++ t) h2]
                        rw [stripGo_esc_br_none g' r2 hta]
                        rw [← List.cons_append]
                        rw [ih ('[' :: r2) hl f' g'
                          (by simp only [List.length_append, List.length_cons] at hf ⊢; omega) hg]
                        rfl
                  · rw [List.cons_append, List.cons_append,
                      stripGo_esc_other f' c2 (r2 ++ t) hbr]
                    rw [stripGo_esc_other g' c2 r2 hbr]
                    rw [← List.cons_append]
                    rw [ih (c2 :: r2) hl f' g'
                      (by simp only [List.length_append, List.length_cons] at hf ⊢; omega) hg]
                    rfl
            · rw [List.cons_append, stripGo_not_esc f' c (rest ++ t) he,
                stripGo_not_esc g' c rest he]
              rw [ih rest hl f' g'
                (by simp only [List.length_append, List.length_cons] at hf ⊢; omega) hg]
              rfl

/-- Appending a blocked, escape-free tail (padding spaces, border glyphs)
commutes with ANSI stripping. -/
theorem stripAnsi_append_blocked (l t : List Char) (htb : blockedHead t) (hte : noEsc t) :
    stripAnsi (l ++ t) = stripAnsi l ++ t := by
  unfold stripAnsi
  exact stripGo_append_blocked_aux t htb hte l.length l (Nat.le_refl _)
    (l ++ t).length l.length (Nat.le_refl _) (Nat.le_refl _)

theorem ansiTail_params (ps : List Char) (hp : ∀ c ∈ ps, isAnsiParam c = true) :
    ∀ r : List Char, ansiTail (ps ++ 'm' :: r) = some r := by
  induction ps with
  | nil => intro r; simp [ansiTail]
  | cons p ps' ih =>
      intro r
      have hpp : isAnsiParam p = true := hp p (by simp)
      simp only [List.cons_append, ansiTail, if_neg (isAnsiParam_ne_m hpp), if_pos hpp]
      exact ih (fun c hc => hp c (by simp [hc])) r

/-- Stripping deletes a leading well-formed colour escape sequence. -/
theorem stripAnsi_strip_prefix (ps r : List Char)
    (hp : ∀ c ∈ ps, isAnsiParam c = true) :
    stripAnsi (escChar :: '[' :: ps ++ 'm' :: r) = stripAnsi r := by
  have h1 : (escChar :: '[' :: ps ++ 'm' :: r).length = ps.length + r.length + 3 := by
    simp; omega
  rw [stripAnsi_eq_go _ (ps.length + r.length + 2 + 1) (by omega)]
  rw [List.cons_append, List.cons_append]
  rw [stripGo_esc_br_some _ _ r (ansiTail_params ps hp r)]
  exact (stripAnsi_eq_go r _ (by omega)).symm

theorem ansiTail_noM_esc (r t : List Char) (hm : 'm' ∉ r) :
    ansiTail (r ++ escChar :: t) = none := by
  induction r with
  | nil =>
      simp only [List.nil_append, ansiTail]
      rw [if_neg (by decide), if_neg (by decide)]
  | cons c r' ih =>
      have hcm : c ≠ 'm' := by intro h; exact hm (by simp [h])
      simp only [List.cons_append, ansiTail, if_neg hcm]
      by_cases hp : isAnsiParam c
      · rw [if_pos hp]; exact ih (fun h => hm (by simp [h]))
      · rw [if_neg hp]

/-- The closing `\033[0m` colour reset is stripped, and cannot combine with
a preceding string holding no letter `m` to form a longer match. -/
theorem stripGo_noM_reset :
    ∀ n : Nat, ∀ l : List Char, l.length ≤ n → 'm' ∉ l → ∀ f,
      (l ++ [escChar, '[', '0', 'm']).length ≤ f →
      stripGo f (l ++ [escChar, '[', '0', 'm']) = l := by
  intro n
  induction n with
  | zero =>
      intro l hl _ f hf
      have : l = [] := List.length_eq_zero.mp (Nat.le_zero.mp hl)
      subst this
      match f, hf with
      | f' + 1, _ =>
        show stripGo (f' + 1) (escChar :: '[' :: '0' :: 'm' :: []) = []
        rw [stripGo_esc_br_some f' ['0', 'm'] [] rfl]
        exact stripGo_nil f'
  | succ n ih =>
      intro l hl hm f hf
      match l with
      | [] =>
          match f, hf with
          | f' + 1, _ =>
            show stripGo (f' + 1) (escChar :: '[' :: '0' :: 'm' :: []) = []
            rw [stripGo_esc_br_some f' ['0', 'm'] [] rfl]
            exact stripGo_nil f'
      | c :: rest =>
          match f, hf with
          | f' + 1, hff =>
            simp only [List.length_cons, Nat.add_le_add_iff_right] at hl
            have hff' : rest.length + 4 ≤ f' := by
              simp only [List.cons_append, List.length_cons, List.length_append,
                List.length_nil, Nat.add_le_add_iff_right] at hff
              omega
            clear hff
            have hmrest : 'm' ∉ rest := fun h => hm (by simp [h])
            by_cases he : c = escChar
            · subst he
              match rest, hff' with
              | [], _ =>
                  show stripGo (f' + 1)
                    (escChar :: escChar :: '[' :: '0' :: 'm' :: []) = [escChar]
                  rw [stripGo_esc_other f' escChar _ (by decide)]
                  have := ih [] (Nat.zero_le n) (by simp) f'
                    (by simp only [List.nil_append]; simp; omega)
                  simp only [List.nil_append] at this
                  rw [this]
              | c2 :: r2, hff' =>
                  have hmr2 : 'm' ∉ r2 := fun h => hmrest (by simp [h])
                  by_cases hbr : c2 = '['
                  · subst hbr
                    rw [List.cons_append, List.cons_append]
                    rw [stripGo_esc_br_none f' _ (ansiTail_noM_esc r2 _ hmr2)]
                    rw [← List.cons_append]
                    rw [ih ('[' :: r2) hl (fun h => hmrest (by simpa using h)) f'
                      (by simp at hff' ⊢; omega)]
                  · rw [List.cons_append, List.cons_append,
                      stripGo_esc_other f' c2 _ hbr, ← List.cons_append]
                    rw [ih (c2 :: r2) hl hmrest f'
                      (by simp at hff' ⊢; omega)]
            · rw [List.cons_append, stripGo_not_esc f' c _ he]
              rw [ih rest hl hmrest f'
                (by simp at hff' ⊢; omega)]

/-- A string holding no letter `m` followed by the colour reset `\033[0m`
strips to exactly the string itself. -/
theorem stripAnsi_noM_reset (l : List Char) (hm : 'm' ∉ l) :
    stripAnsi (l ++ [escChar, '[', '0', 'm']) = l :=
  stripGo_noM_reset l.length l (Nat.le_refl _) hm _ (Nat.le_refl _)

/-! ## Python string primitives -/

/-- Whitespace recognised by Python `str.split()` with no arguments
(modelled on the ASCII range). -/
def isPySpace (c : Char) : Bool :=
  c == ' ' || c == '\t' || c == '\n' || c == '\r' || c == '\x0b' || c == '\x0c'

/-- Worker for `pySplit`; `cur` is the current word accumulated in reverse. -/
def pySplitAux : List Char → List Char → List (List Char)
  | [], cur => if cur = [] then [] else [cur.reverse]
  | c :: rest, cur =>
      if isPySpace c then
        if cur = [] then pySplitAux rest [] else cur.reverse :: pySplitAux rest []
      else pySplitAux rest (c :: cur)

/-- Model of Python `str.split()`: split on runs of whitespace, never
producing empty words. -/
def pySplit (s : List Char) : List (List Char) := pySplitAux s []

/-- Model of Python `str.ljust(w)` (space fill). -/
def pyLjust (l : List Char) (w : Nat) : List Char :=
  l ++ List.replicate (w - l.length) ' '

/-- Model of Python `str.rjust(w)` / `f-string {x:>w}` (space fill). -/
def pyRjust (l : List Char) (w : Nat) : List Char :=
  List.replicate (w - l.length) ' ' ++ l

/-- Model of Python `str.center(w)`, including CPython's placement of the
extra space cell (`left = marg / 2 + (marg & w & 1)`). -/
def pyCenter (l : List Char) (w : Nat) : List Char :=
  let marg := w - l.length
  let left := marg / 2 + (marg &&& w &&& 1)
  List.replicate left ' ' ++ l ++ List.replicate (marg - left) ' '

/-- Decimal rendering of a natural number, as Python `str(n)`. -/
def natRepr (n : Nat) : List Char := (Nat.repr n).data

/-- Model of Python `" ".join(pieces)`. -/
def joinSp : List (List Char) → List Char
  | [] => []
  | [l] => l
  | l :: l2 :: ls => l ++ ' ' :: joinSp (l2 :: ls)

/-- Model of Python `"\n".join(pieces)`. -/
def joinNl : List (List Char) → List Char
  | [] => []
  | [l] => l
  | l :: l2 :: ls => l ++ '\n' :: joinNl (l2 :: ls)

/-- Python `str.upper()`, modelled on the ASCII range via `Char.toUpper`. -/
def pyUpper (l : List Char) : List Char := l.map Char.toUpper

/-- Python `str.lower()`, modelled on the ASCII range via `Char.toLower`. -/
def pyLower (l : List Char) : List Char := l.map Char.toLower

/-! ## Configuration constants (src/config.py) -/

/-- The glyph ramp `ASCII_CHARS` of `config.py`, ordered darkest to
brightest. -/
def ASCII_CHARS : List Char := "@@%%##**++==--::..  ".data

/-- The `TYPE_COLORS` table of `config.py` (type name to ANSI colour
code). -/
def TYPE_COLORS : List (String × String) :=
  [("normal", "37"), ("fire", "91"), ("water", "94"), ("electric", "93"),
   ("grass", "92"), ("ice", "96"), ("fighting", "31"), ("poison", "95"),
   ("ground", "33"), ("flying", "36"), ("psychic", "35"), ("bug", "32"),
   ("rock", "33"), ("ghost", "35"), ("dragon", "34"), ("dark", "90"),
   ("steel", "37"), ("fairy", "95")]

/-- The `CATEGORY_COLORS` table of `config.py`. -/
def CATEGORY_COLORS : List (String × String) :=
  [("physical", "91"), ("special", "94"), ("status", "93")]

/-- Python `TYPE_COLORS.get(key, '37')`. -/
def colorGet (table : List (String × String)) (k : List Char) : List Char :=
  match table.find? (fun p => p.1.data == k) with
  | some p => p.2.data
  | none => ['3', '7']

/-! ## DisplayFormatter (src/display_utils.py) -/

/-- Loop state of `wrap_text`: the accumulated `lines` and the
`current_line`, threaded over the words. -/
def wrapLoop (width : Nat) (lines : List (List Char)) (current : List Char) :
    List (List Char) → List (List Char) × List Char
  | [] => (lines, current)
  | w :: ws =>
      if current.length + 1 + w.length ≤ width then
        if current = [] then wrapLoop width lines w ws
        else wrapLoop width lines (current ++ ' ' :: w) ws
      else
        if current = [] then wrapLoop width (lines ++ [w.take width]) (w.drop width) ws
        else wrapLoop width (lines ++ [current]) w ws

/-- The epilogue of `wrap_text`: `if current_line: lines.append(current_line)`. -/
def endLines (st : List (List Char) × List Char) : List (List Char) :=
  if st.2 = [] then st.1 else st.1 ++ [st.2]

/-- Model of `DisplayFormatter.wrap_text` (display_utils.py lines 19-46). -/
def wrap_text (text : List Char) (width : Nat) : List (List Char) :=
  if text = [] then [[]]
  else
    let lines := endLines (wrapLoop width [] [] (pySplit text))
    if lines = [] then [[]] else lines

/-- Model of `DisplayFormatter.format_move_type` (display_utils.py lines
48-53): uppercase, truncate to 8, pad to 8, wrap in colour codes. -/
def format_move_type (move_type : List Char) : List Char :=
  let color := colorGet TYPE_COLORS (pyLower move_type)
  let type_text := pyLjust ((pyUpper move_type).take 8) 8
  escChar :: '[' :: color ++ 'm' :: type_text ++ [escChar, '[', '0', 'm']

/-- Model of `DisplayFormatter.format_move_category` (display_utils.py
lines 55-60): truncate to 8, pad to 8, wrap in colour codes (note: no
uppercasing here, unlike `format_move_type`). -/
def format_move_category (category : List Char) : List Char :=
  let color := colorGet CATEGORY_COLORS (pyLower category)
  let category_text := pyLjust (category.take 8) 8
  escChar :: '[' :: color ++ 'm' :: category_text ++ [escChar, '[', '0', 'm']

/-- Model of `DisplayFormatter.format_bordered_content` (display_utils.py
lines 203-216): pad each line to the content width measured without ANSI
codes (`max 0` is implicit in truncated subtraction) and add the border
glyphs. -/
def format_bordered_content (lines : List (List Char)) (content_width : Nat) :
    List (List Char) :=
  lines.map (fun line =>
    let padding_needed := content_width - visibleLen line
    '║' :: ' ' :: (line ++ List.replicate padding_needed ' ') ++ [' ', '║'])

/-! ## Sprite rendering pipeline (display_utils.py lines 107-153) -/

/-- A decoded RGBA source image: dimensions plus a pixel map returning
(r, g, b, a), each channel in 0..255. -/
structure RGBAImage where
  width : Nat
  height : Nat
  pixel : Nat → Nat → Nat × Nat × Nat × Nat

/-- Source-over compositing of one channel onto an opaque pure-white
background (`Image.alpha_composite(background, img)` with a white
background), in exact integer arithmetic. -/
def overWhite (c a : Nat) : Nat := (c * a + 255 * (255 - a)) / 255

/-- ITU-R 601-2 luma transform used by PIL `convert('L')`, applied after
white-compositing a pixel. -/
def compositeGray (p : Nat × Nat × Nat × Nat) : Nat :=
  let a := p.2.2.2
  (overWhite p.1 a * 299 + overWhite p.2.1 a * 587 + overWhite p.2.2.1 a * 114) / 1000

/-- Output height of the sprite renderer:
`int(width * (img.height / img.width) * 0.45)` computed exactly. -/
def spriteHeight (width ow oh : Nat) : Nat := width * oh * 45 / (ow * 100)

/-- Glyph index for a luminance value:
`int(pixel / 255 * (len(ascii_chars) - 1))` computed exactly. -/
def asciiIndex (p : Nat) : Nat := p * (ASCII_CHARS.length - 1) / 255

/-- The ramp glyph for a luminance value (`self.ascii_chars[ascii_index]`;
the default is irrelevant because the index is proved in range). -/
def asciiCharOf (p : Nat) : Char := ASCII_CHARS.getD (asciiIndex p) '?'

/-- Character grid produced by `get_sprite_ascii` for a decoded image:
composite over white, grayscale, resize to `width x height` (resampling
modelled as nearest-neighbour sampling, which any standard interpolation
matches on the constant images considered here), then map each pixel
through the glyph ramp. -/
def spriteRows (img : RGBAImage) (width : Nat) : List (List Char) :=
  let height := spriteHeight width img.width img.height
  (List.range height).map (fun y =>
    (List.range width).map (fun x =>
      asciiCharOf (compositeGray (img.pixel (x * img.width / width) (y * img.height / height)))))

/-- Outcome of the sprite fetch seen by `get_sprite_ascii`: no URL at all,
or an HTTP response carrying a status code and either a decoded image or a
decode failure (the exception message caught by the `except` clause). -/
inductive SpriteFetch where
  | noUrl : SpriteFetch
  | response (status : Nat) (decoded : Except (List Char) RGBAImage) : SpriteFetch

/-- The `"No sprite available"` placeholder string. -/
def noSpriteMsg : List Char := "No sprite available".data

/-- The `"Failed to load sprite"` placeholder string. -/
def failedLoadMsg : List Char := "Failed to load sprite".data

/-- The `"Error generating ASCII art: "` message prefix of the `except`
handler. -/
def errorArtPrefix : List Char := "Error generating ASCII art: ".data

/-- Model of `DisplayFormatter.get_sprite_ascii` (display_utils.py lines
107-153). -/
def get_sprite_ascii (src : SpriteFetch) (width : Nat) : List Char :=
  match src with
  | .noUrl => noSpriteMsg
  | .response status decoded =>
      if status ≠ 200 then failedLoadMsg
      else
        match decoded with
        | .error e => errorArtPrefix ++ e
        | .ok img => joinNl (spriteRows img width)

/-! ## Side-by-side panel rows (pokedex_core.py lines 55-141) -/

/-- One output row of the sprite/info panel:
`f"║ {sprite_part} │ {info_part} ║"`. -/
def panelRow (spritePart infoPart : List Char) : List Char :=
  '║' :: ' ' :: spritePart ++ ' ' :: '│' :: ' ' :: infoPart ++ [' ', '║']

/-- Normalisation `[line[:w].ljust(w) for line in lines]` used for both
columns of `display_pokemon`. -/
def normalizeLines (w : Nat) (lines : List (List Char)) : List (List Char) :=
  lines.map (fun l => pyLjust (l.take w) w)

/-- Append blank lines of width `w` until the block has `h` lines
(the `while len(...) < h: append(" " * w)` loops). -/
def padToHeight (w h : Nat) (lines : List (List Char)) : List (List Char) :=
  lines ++ List.replicate (h - lines.length) (List.replicate w ' ')

/-- The side-by-side body rows printed by `PokedexCore.display_pokemon`
(pokedex_core.py lines 55-141): sprite column normalised to width 50 and
at least 20 rows, info column normalised to width 60, both padded to a
common height, then joined with the `│` separator inside the border. -/
def sideBySideRows (spriteLines infoLines : List (List Char)) : List (List Char) :=
  let s0 := padToHeight 50 20 (normalizeLines 50 spriteLines)
  let i0 := normalizeLines 60 infoLines
  let h := max s0.length i0.length
  let s := padToHeight 50 h s0
  let i := padToHeight 60 h i0
  (s.zip i).map (fun p => panelRow p.1 p.2)

/-! ## Stat comparison (comparison_handler.py lines 196-226) -/

/-- The winner markers of `_display_stat_comparison_line`. -/
def winners (value1 value2 : Nat) : Char × Char :=
  if value1 > value2 then ('►', ' ')
  else if value2 > value1 then (' ', '◄')
  else ('=', '=')

/-- Filled-cell count of one comparison bar:
`int((value / max_value) * bar_length)` with `bar_length = 20`, computed
exactly. -/
def barFill (value max_value : Nat) : Nat := value * 20 / max_value

/-- One visual bar: `"█" * bar_len + "░" * (20 - bar_len)`. -/
def statBarChars (value max_value : Nat) : List Char :=
  List.replicate (barFill value max_value) '█'
    ++ List.replicate (20 - barFill value max_value) '░'

/-- Model of `ComparisonHandler._display_stat_comparison_line`: the full
printed line (without the outer border), centred to width 111. -/
def statComparisonLine (stat_name : List Char) (value1 value2 : Nat) : List Char :=
  let w := winners value1 value2
  let max_value := max (max value1 value2) 1
  let bar1 := statBarChars value1 max_value
  let bar2 := statBarChars value2 max_value
  pyCenter
    (pyRjust stat_name 8 ++ ':' :: ' ' :: w.1 :: ' ' :: pyRjust (natRepr value1) 3
      ++ ' ' :: '[' :: bar1 ++ ']' :: ' ' :: 'V' :: 'S' :: ' ' :: '[' :: bar2
      ++ ']' :: ' ' :: pyLjust (natRepr value2) 3 ++ [' ', w.2]) 111

/-! ## Move table (move_handler.py lines 168-206) -/

/-- One move record as consumed by `format_move_table`.  `power`,
`accuracy` and `pp` are `Option`s whose `none` (and `0`, via Python's
falsy `or`) renders as dashes; `level` is absent or a number. -/
structure Move where
  name : List Char
  mtype : List Char
  power : Option Nat
  accuracy : Option Nat
  pp : Option Nat
  category : List Char
  level : Option Nat

/-- Python `str(value or '--')` for an optional numeric field. -/
def orDashes (v : Option Nat) : List Char :=
  match v with
  | some n => if n = 0 then ['-', '-'] else natRepr n
  | none => ['-', '-']

/-- The Python test `'level' in move and move['level'] > 0`. -/
def hasLevel (m : Move) : Bool :=
  match m.level with
  | some l => decide (0 < l)
  | none => false

/-- The 80-character rule line `"─" * 80`. -/
def rule80 : List Char := List.replicate 80 '─'

/-- Column header used when some move has a level. -/
def moveHeaderLevel : List Char :=
  pyLjust "LEVEL".data 5 ++ ' ' :: pyLjust "MOVE NAME".data 20 ++ ' '
    :: pyLjust "TYPE".data 8 ++ ' ' :: pyLjust "POW".data 4 ++ ' '
    :: pyLjust "ACC".data 4 ++ ' ' :: pyLjust "PP".data 3 ++ ' '
    :: pyLjust "CATEGORY".data 8

/-- Column header used when no move has a level. -/
def moveHeaderNoLevel : List Char :=
  "     ".data ++ ' ' :: pyLjust "MOVE NAME".data 20 ++ ' '
    :: pyLjust "TYPE".data 8 ++ ' ' :: pyLjust "POW".data 4 ++ ' '
    :: pyLjust "ACC".data 4 ++ ' ' :: pyLjust "PP".data 3 ++ ' '
    :: pyLjust "CATEGORY".data 8

/-- The header chosen by `format_move_table` from the whole move list. -/
def moveHeader (moves : List Move) : List Char :=
  if moves.any hasLevel then moveHeaderLevel else moveHeaderNoLevel

/-- One data row of the move table. -/
def moveRow (m : Move) : List Char :=
  let name := pyLjust (m.name.take 20) 20
  let mt := format_move_type m.mtype
  let power := pyLjust (orDashes m.power) 4
  let accuracy := pyLjust (orDashes m.accuracy) 4
  let pp := pyLjust (orDashes m.pp) 3
  let cat := format_move_category m.category
  if hasLevel m then
    pyLjust ("Lv.".data ++ pyRjust (natRepr (m.level.getD 0)) 2) 5
      ++ ' ' :: name ++ ' ' :: mt ++ ' ' :: power ++ ' ' :: accuracy
      ++ ' ' :: pp ++ ' ' :: cat
  else
    "     ".data ++ ' ' :: name ++ ' ' :: mt ++ ' ' :: power ++ ' ' :: accuracy
      ++ ' ' :: pp ++ ' ' :: cat

/-- The `f"... and {len(moves) - 20} more moves"` summary line. -/
def moreMovesLine (n : Nat) : List Char :=
  "... and ".data ++ natRepr n ++ " more moves".data

/-- Model of `MoveHandler.format_move_table` as the list of lines joined
by the final `'\n'.join`: title, rule, header, rule, at most 20 data rows,
and a summary line when more than 20 moves exist. -/
def moveTableLines (moves : List Move) (title : List Char) : List (List Char) :=
  match moves with
  | [] => [title ++ ": None".data]
  | _ :: _ =>
    [title ++ [':'], rule80, moveHeader moves, rule80]
      ++ (moves.take 20).map moveRow
      ++ (if 20 < moves.length then [moreMovesLine (moves.length - 20)] else [])

/-- Model of `MoveHandler.format_move_table` (the returned string). -/
def format_move_table (moves : List Move) (title : List Char) : List Char :=
  joinNl (moveTableLines moves title)

/-! ## Location table (location_handler.py lines 203-227) -/

/-- One encounter-location record as consumed by `format_location_table`. -/
structure LocationRow where
  location : List Char
  area : List Char
  method : List Char
  level_range : List Char
  chance : Nat

/-- Header line of the location table. -/
def locationHeader : List Char :=
  pyLjust "LOCATION".data 25 ++ ' ' :: pyLjust "AREA".data 20 ++ ' '
    :: pyLjust "METHOD".data 15 ++ ' ' :: pyLjust "LEVEL".data 8 ++ ' '
    :: pyLjust "CHANCE".data 6

/-- One data row of the location table. -/
def locationRowLine (l : LocationRow) : List Char :=
  pyLjust (l.location.take 25) 25 ++ ' ' :: pyLjust (l.area.take 20) 20 ++ ' '
    :: pyLjust (l.method.take 15) 15 ++ ' ' :: pyLjust (l.level_range.take 8) 8
    ++ ' ' :: pyLjust (natRepr l.chance ++ ['%']) 6

/-- The `f"... and {len(locations) - 25} more locations"` summary line. -/
def moreLocationsLine (n : Nat) : List Char :=
  "... and ".data ++ natRepr n ++ " more locations".data

/-- Model of `LocationHandler.format_location_table` as the list of lines:
title, rule, header, rule, at most 25 data rows, and a summary line when
more than 25 locations exist. -/
def locationTableLines (locations : List LocationRow) (title : List Char) :
    List (List Char) :=
  match locations with
  | [] => [title ++ ": None found".data]
  | _ :: _ =>
    [title ++ [':'], rule80, locationHeader, rule80]
      ++ (locations.take 25).map locationRowLine
      ++ (if 25 < locations.length then [moreLocationsLine (locations.length - 25)]
          else [])

/-- Model of `LocationHandler.format_location_table` (the returned
string). -/
def format_location_table (locations : List LocationRow) (title : List Char) :
    List Char :=
  joinNl (locationTableLines locations title)

/-! ## Helper lemmas -/

theorem pyLjust_length (l : List Char) (w : Nat) :
    (pyLjust l w).length = max l.length w := by
  simp [pyLjust]
  omega

theorem toNat_Char_ofNat {n : Nat} (h : n < 55296) : (Char.ofNat n).toNat = n := by
  have hv : n.isValidChar := Or.inl h
  rw [Char.ofNat, dif_pos hv]
  simp [Char.ofNatAux, Char.toNat, UInt32.ofNat', UInt32.toNat]

/-- `str.upper` can never produce a lowercase `m`. -/
theorem toUpper_ne_m (c : Char) : c.toUpper ≠ 'm' := by
  unfold Char.toUpper
  by_cases h : c.toNat >= 97 ∧ c.toNat <= 122
  · rw [if_pos h]
    intro he
    have h2 : (Char.ofNat (c.toNat - 32)).toNat = ('m').toNat := by rw [he]
    rw [toNat_Char_ofNat (by omega)] at h2
    have hm : ('m').toNat = 109 := by decide
    omega
  · rw [if_neg h]
    intro he
    subst he
    exact h (by decide)

theorem spriteRows_length (img : RGBAImage) (width : Nat) :
    (spriteRows img width).length = spriteHeight width img.width img.height := by
  simp [spriteRows]

theorem spriteRows_row_length (img : RGBAImage) (width : Nat) :
    ∀ row ∈ spriteRows img width, row.length = width := by
  intro row hrow
  simp only [spriteRows, List.mem_map] at hrow
  obtain ⟨y, -, rfl⟩ := hrow
  simp

/-! ## C2: sprite grid dimensions -/

/-- C2 (amended): for every decodable source image and width, the sprite
renderer produces exactly `H` rows of exactly `width` characters each,
where `H = int(width * (height/width) * 0.45)` with Python `int`
truncation (the claim's `round` is wrong: the code truncates). -/
theorem sprite_grid_dimensions (img : RGBAImage) (width : Nat) :
    (spriteRows img width).length = spriteHeight width img.width img.height
    ∧ ∀ row ∈ spriteRows img width, row.length = width :=
  ⟨spriteRows_length img width, spriteRows_row_length img width⟩

/-- C2 counterexample: a 50x75 source rendered at width 50 yields
`int(33.75) = 33` rows, not `round(33.75) = 34` as the claim's formula
demands. -/
theorem sprite_grid_round_cex :
    ¬ ((spriteRows ⟨50, 75, fun _ _ => (0, 0, 0, 255)⟩ 50).length
        = (round ((50 : ℚ) * ((75 : ℚ) / (50 : ℚ)) * ((45 : ℚ) / (100 : ℚ)))).toNat) := by
  rw [spriteRows_length]
  intro h
  rw [show spriteHeight 50 50 75 = 33 by rfl] at h
  rw [show ((50 : ℚ) * ((75 : ℚ) / (50 : ℚ)) * ((45 : ℚ) / (100 : ℚ))) = 135 / 4 by norm_num] at h
  rw [round_eq] at h
  norm_num at h
  exact absurd h (by decide)

/-! ## C7: sprite placeholder outcomes -/

/-- C7 (amended): `get_sprite_ascii` is total (never propagates an
exception); a missing URL yields the fixed 19-character single-line
placeholder `No sprite available`, an HTTP failure yields the distinct
21-character single-line placeholder `Failed to load sprite`, and a decode
failure yields `Error generating ASCII art: ` followed by the exception
message.  The two fixed placeholders are distinguishable in content and
equal in height (one line) but differ in width (19 vs 21), contrary to the
claim's `identical in dimensions`. -/
theorem sprite_placeholder_behaviour (width status : Nat) (e : List Char)
    (d : Except (List Char) RGBAImage) (hstatus : status ≠ 200) :
    get_sprite_ascii .noUrl width = noSpriteMsg
    ∧ get_sprite_ascii (.response status d) width = failedLoadMsg
    ∧ get_sprite_ascii (.response 200 (.error e)) width = errorArtPrefix ++ e
    ∧ noSpriteMsg ≠ failedLoadMsg
    ∧ '\n' ∉ noSpriteMsg ∧ '\n' ∉ failedLoadMsg
    ∧ noSpriteMsg.length = 19 ∧ failedLoadMsg.length = 21 := by
  refine ⟨rfl, ?_, rfl, by decide, by decide, by decide, by decide, by decide⟩
  simp [get_sprite_ascii, hstatus]

theorem sprite_placeholder_behaviour_witness :
    (404 : Nat) ≠ 200 ∧ get_sprite_ascii (.response 404 (.error [])) 50 = failedLoadMsg :=
  ⟨by decide, (sprite_placeholder_behaviour 50 404 [] (.error []) (by decide)).2.1⟩

/-- C7 counterexample: the two placeholder blocks are not identical in
dimensions — their widths are 19 and 21 characters. -/
theorem sprite_placeholder_dimensions_cex :
    ¬ ((get_sprite_ascii .noUrl 50).length
        = (get_sprite_ascii (.response 404 (.error [])) 50).length) := by
  decide

/-! ## C8: fully transparent sprites render as the brightest glyph -/

/-- C8: a uniformly fully-transparent source image renders as the ramp's
brightest (last) glyph in every cell, because pixels are composited
source-over onto pure white before the grayscale conversion. -/
theorem transparent_sprite_brightest (img : RGBAImage) (width : Nat)
    (htrans : ∀ x y, (img.pixel x y).2.2.2 = 0) :
    ∀ row ∈ spriteRows img width, ∀ c ∈ row,
      c = ASCII_CHARS.getD (ASCII_CHARS.length - 1) '?' := by
  intro row hrow c hc
  simp only [spriteRows, List.mem_map] at hrow
  obtain ⟨y, -, rfl⟩ := hrow
  simp only [List.mem_map] at hc
  obtain ⟨x, -, rfl⟩ := hc
  have ha := htrans (x * img.width / width)
    (y * img.height / spriteHeight width img.width img.height)
  simp only [compositeGray]
  rw [ha]
  simp only [overWhite, Nat.mul_zero, Nat.zero_add, Nat.sub_zero]
  decide

theorem transparent_sprite_brightest_witness :
    ((spriteRows ⟨2, 2, fun _ _ => (0, 0, 0, 0)⟩ 5).headD []).headD '?'
      = ASCII_CHARS.getD (ASCII_CHARS.length - 1) '?' :=
  transparent_sprite_brightest ⟨2, 2, fun _ _ => (0, 0, 0, 0)⟩ 5 (fun _ _ => rfl)
    ((spriteRows ⟨2, 2, fun _ _ => (0, 0, 0, 0)⟩ 5).headD []) (by decide)
    (((spriteRows ⟨2, 2, fun _ _ => (0, 0, 0, 0)⟩ 5).headD []).headD '?') (by decide)

/-! ## C9: glyph index stays in range -/

/-- C9: for every luminance value `p <= 255`, the glyph index
`int(p / 255 * (len(ramp) - 1))` lies in `[0, len(ramp) - 1]`, so indexing
the (non-empty) ramp never goes out of bounds. -/
theorem glyph_index_in_range (p : Nat) (hp : p ≤ 255) :
    asciiIndex p ≤ ASCII_CHARS.length - 1
    ∧ asciiIndex p < ASCII_CHARS.length
    ∧ asciiCharOf p ∈ ASCII_CHARS := by
  have hlen : ASCII_CHARS.length = 20 := rfl
  have hb : asciiIndex p ≤ 19 := by
    have h1 : p * (ASCII_CHARS.length - 1) ≤ 255 * 19 := by
      rw [hlen]
      exact Nat.mul_le_mul_right 19 hp
    have h2 : asciiIndex p ≤ 255 * 19 / 255 := by
      unfold asciiIndex
      exact Nat.div_le_div_right h1
    simpa using h2
  refine ⟨by omega, by omega, ?_⟩
  have hlt : asciiIndex p < ASCII_CHARS.length := by omega
  unfold asciiCharOf
  rw [List.getD_eq_getElem ASCII_CHARS '?' hlt]
  exact List.getElem_mem hlt

theorem glyph_index_in_range_witness :
    ((0 : Nat) ≤ 255 ∧ asciiIndex 0 < ASCII_CHARS.length)
    ∧ ((255 : Nat) ≤ 255 ∧ asciiIndex 255 < ASCII_CHARS.length) :=
  ⟨⟨by decide, (glyph_index_in_range 0 (by decide)).2.1⟩,
   ⟨by decide, (glyph_index_in_range 255 (by decide)).2.1⟩⟩

/-! ## C4: stat comparison markers and bar fills -/

theorem barFill_le_20 (v m : Nat) (hv : v ≤ m) (hm : 0 < m) : barFill v m ≤ 20 := by
  unfold barFill
  calc v * 20 / m ≤ m * 20 / m := Nat.div_le_div_right (Nat.mul_le_mul_right 20 hv)
    _ = 20 := Nat.mul_div_cancel_left 20 hm

/-- C4 (amended): the comparison line marks the left side when the left
value is larger, the right side when the right value is larger, and both
sides on a tie; each bar is 20 cells long and its filled-cell count is
`int(value / max(value1, value2, 1) * 20)` — Python `int` truncation, not
the claim's `round`.  At `(100, 50)` the left bar has 20 filled cells, the
right bar 10, the left marker is present and the right marker blank. -/
theorem stat_comparison_markers_and_fill (value1 value2 : Nat) :
    (value2 < value1 → winners value1 value2 = ('►', ' '))
    ∧ (value1 < value2 → winners value1 value2 = (' ', '◄'))
    ∧ (value1 = value2 → winners value1 value2 = ('=', '='))
    ∧ (statBarChars value1 (max (max value1 value2) 1)).length = 20
    ∧ (statBarChars value2 (max (max value1 value2) 1)).length = 20
    ∧ (statBarChars value1 (max (max value1 value2) 1)).count '█'
        = value1 * 20 / max (max value1 value2) 1
    ∧ (statBarChars value2 (max (max value1 value2) 1)).count '█'
        = value2 * 20 / max (max value1 value2) 1 := by
  have hm : 0 < max (max value1 value2) 1 := by omega
  have h1 : value1 ≤ max (max value1 value2) 1 := by omega
  have h2 : value2 ≤ max (max value1 value2) 1 := by omega
  have hf1 := barFill_le_20 value1 _ h1 hm
  have hf2 := barFill_le_20 value2 _ h2 hm
  refine ⟨?_, ?_, ?_, ?_, ?_, ?_, ?_⟩
  · intro h; simp [winners, h]
  · intro h
    have : ¬ value2 < value1 := by omega
    simp [winners, this, h]
  · intro h; simp [winners, h]
  · simp only [statBarChars, List.length_append, List.length_replicate]; omega
  · simp only [statBarChars, List.length_append, List.length_replicate]; omega
  · simp only [statBarChars, List.count_append, List.count_replicate]
    simp [barFill]
  · simp only [statBarChars, List.count_append, List.count_replicate]
    simp [barFill]

theorem stat_comparison_markers_and_fill_witness :
    (50 : Nat) < 100
    ∧ winners 100 50 = ('►', ' ')
    ∧ (statBarChars 100 (max (max 100 50) 1)).count '█' = 100 * 20 / max (max 100 50) 1 :=
  ⟨by decide, (stat_comparison_markers_and_fill 100 50).1 (by decide),
    (stat_comparison_markers_and_fill 100 50).2.2.2.2.2.1⟩

/-- C4 counterexample: at values `(5, 6)` the code's filled-cell count for
the left bar is `int(5/6*20) = 16`, while the claim's formula
`round(5/6*20)` demands 17. -/
theorem stat_comparison_round_cex :
    ¬ ((statBarChars 5 (max (max 5 6) 1)).count '█'
        = (round ((5 : ℚ) / (6 : ℚ) * (20 : ℚ))).toNat) := by
  intro h
  rw [show ((5 : ℚ) / (6 : ℚ) * (20 : ℚ)) = 50 / 3 by norm_num, round_eq] at h
  norm_num at h
  exact absurd h (by decide)

/-! ## C5: framed table row caps -/

/-- C5: a framed move table with `N <= 20` rows shows all `N` rows and no
summary line; with `N > 20` rows it shows exactly 20 data rows followed by
one summary line naming the `N - 20` remaining; likewise for the location
table with cap 25. -/
theorem framed_table_caps (moves : List Move) (locations : List LocationRow)
    (t1 t2 : List Char) (hm : moves ≠ []) (hl : locations ≠ []) :
    (moves.length ≤ 20 →
      moveTableLines moves t1
        = [t1 ++ [':'], rule80, moveHeader moves, rule80] ++ moves.map moveRow)
    ∧ (20 < moves.length →
      moveTableLines moves t1
        = [t1 ++ [':'], rule80, moveHeader moves, rule80]
            ++ (moves.take 20).map moveRow ++ [moreMovesLine (moves.length - 20)]
        ∧ ((moves.take 20).map moveRow).length = 20)
    ∧ (locations.length ≤ 25 →
      locationTableLines locations t2
        = [t2 ++ [':'], rule80, locationHeader, rule80] ++ locations.map locationRowLine)
    ∧ (25 < locations.length →
      locationTableLines locations t2
        = [t2 ++ [':'], rule80, locationHeader, rule80]
            ++ (locations.take 25).map locationRowLine
            ++ [moreLocationsLine (locations.length - 25)]
        ∧ ((locations.take 25).map locationRowLine).length = 25) := by
  refine ⟨?_, ?_, ?_, ?_⟩
  · intro hle
    match moves, hm with
    | m :: ms, _ =>
      simp only [moveTableLines]
      rw [List.take_of_length_le hle, if_neg (by omega)]
      simp
  · intro hgt
    match moves, hm with
    | m :: ms, _ =>
      constructor
      · simp only [moveTableLines]
        rw [if_pos hgt]
      · simp only [List.length_map, List.length_take]
        omega
  · intro hle
    match locations, hl with
    | m :: ms, _ =>
      simp only [locationTableLines]
      rw [List.take_of_length_le hle, if_neg (by omega)]
      simp
  · intro hgt
    match locations, hl with
    | m :: ms, _ =>
      constructor
      · simp only [locationTableLines]
        rw [if_pos hgt]
      · simp only [List.length_map, List.length_take]
        omega

/-- Concrete single-row inputs for the framed-table witness. -/
def witnessMove : Move :=
  ⟨"pound".data, "normal".data, some 40, some 100, some 35, "physical".data, some 1⟩

/-- Concrete single-row location input for the framed-table witness. -/
def witnessLocation : LocationRow :=
  ⟨"viridian-forest".data, "area".data, "walk".data, "3-5".data, 20⟩

theorem framed_table_caps_witness :
    moveTableLines [witnessMove] ("LEVEL-UP MOVES".data)
      = ["LEVEL-UP MOVES".data ++ [':'], rule80, moveHeader [witnessMove], rule80]
          ++ [witnessMove].map moveRow
    ∧ locationTableLines [witnessLocation] ("ENCOUNTER LOCATIONS".data)
      = ["ENCOUNTER LOCATIONS".data ++ [':'], rule80, locationHeader, rule80]
          ++ [witnessLocation].map locationRowLine :=
  ⟨(framed_table_caps [witnessMove] [witnessLocation] ("LEVEL-UP MOVES".data)
      ("ENCOUNTER LOCATIONS".data) (by simp) (by simp)).1 (by simp),
   (framed_table_caps [witnessMove] [witnessLocation] ("LEVEL-UP MOVES".data)
      ("ENCOUNTER LOCATIONS".data) (by simp) (by simp)).2.2.1 (by simp)⟩

/-! ## C3 and C6: wrap_text invariants -/

theorem pySplitAux_ne_nil : ∀ (s cur : List Char), ∀ w ∈ pySplitAux s cur, w ≠ [] := by
  intro s
  induction s with
  | nil =>
      intro cur w hw
      simp only [pySplitAux] at hw
      by_cases hc : cur = []
      · simp [hc] at hw
      · rw [if_neg hc] at hw
        simp only [List.mem_singleton] at hw
        subst hw
        simpa using hc
  | cons c rest ih =>
      intro cur w hw
      simp only [pySplitAux] at hw
      by_cases hsp : isPySpace c
      · rw [if_pos hsp] at hw
        by_cases hc : cur = []
        · rw [if_pos hc] at hw
          exact ih [] w hw
        · rw [if_neg hc] at hw
          rcases List.mem_cons.mp hw with hw | hw
          · subst hw; simpa using hc
          · exact ih [] w hw
      · rw [if_neg hsp] at hw
        exact ih (c :: cur) w hw

theorem pySplit_ne_nil (s : List Char) : ∀ w ∈ pySplit s, w ≠ [] :=
  pySplitAux_ne_nil s []

theorem wrapLoop_length (width : Nat) :
    ∀ (ws : List (List Char)) (lines : List (List Char)) (current : List Char),
      (∀ w ∈ ws, w.length ≤ width) →
      (∀ l ∈ lines, l.length ≤ width) → current.length ≤ width →
      (∀ l ∈ (wrapLoop width lines current ws).1, l.length ≤ width)
      ∧ (wrapLoop width lines current ws).2.length ≤ width := by
  intro ws
  induction ws with
  | nil =>
      intro lines current _ hlines hcur
      exact ⟨hlines, hcur⟩
  | cons w ws ih =>
      intro lines current hws hlines hcur
      have hw : w.length ≤ width := hws w (by simp)
      have hws' : ∀ x ∈ ws, x.length ≤ width := fun x hx => hws x (by simp [hx])
      by_cases hfit : current.length + 1 + w.length ≤ width
      · by_cases hemp : current = []
        · simp only [wrapLoop, if_pos hfit, if_pos hemp]
          exact ih lines w hws' hlines hw
        · simp only [wrapLoop, if_pos hfit, if_neg hemp]
          exact ih lines (current ++ ' ' :: w) hws' hlines (by simp; omega)
      · by_cases hemp : current = []
        · simp only [wrapLoop, if_neg hfit, if_pos hemp]
          refine ih (lines ++ [w.take width]) (w.drop width) hws' ?_ (by simp; omega)
          intro l hl
          rcases List.mem_append.mp hl with hl | hl
          · exact hlines l hl
          · simp only [List.mem_singleton] at hl
            subst hl
            simp
        · simp only [wrapLoop, if_neg hfit, if_neg hemp]
          refine ih (lines ++ [current]) w hws' ?_ hw
          intro l hl
          rcases List.mem_append.mp hl with hl | hl
          · exact hlines l hl
          · simp only [List.mem_singleton] at hl
            subst hl
            exact hcur

theorem joinSp_cons_of_ne (x : List Char) (L : List (List Char)) (h : L ≠ []) :
    joinSp (x :: L) = x ++ ' ' :: joinSp L := by
  match L with
  | [] => exact absurd rfl h
  | y :: ys => rfl

theorem joinSp_merge :
    ∀ (xs : List (List Char)) (a b : List Char) (ys : List (List Char)),
      joinSp (xs ++ (a ++ ' ' :: b) :: ys) = joinSp (xs ++ a :: b :: ys) := by
  intro xs
  induction xs with
  | nil =>
      intro a b ys
      match ys with
      | [] => rfl
      | y :: ys' =>
          show joinSp ((a ++ ' ' :: b) :: y :: ys') = joinSp (a :: b :: y :: ys')
          rw [joinSp_cons_of_ne (a ++ ' ' :: b) (y :: ys') (by simp),
            joinSp_cons_of_ne a (b :: y :: ys') (by simp),
            joinSp_cons_of_ne b (y :: ys') (by simp)]
          simp
  | cons x xs ih =>
      intro a b ys
      rw [List.cons_append, List.cons_append,
        joinSp_cons_of_ne _ _ (by simp), joinSp_cons_of_ne _ _ (by simp), ih]

theorem wrapLoop_join (width : Nat) :
    ∀ (ws : List (List Char)) (lines : List (List Char)) (current : List Char),
      (∀ w ∈ ws, w.length ≤ width) → (∀ w ∈ ws, w ≠ []) →
      current.length ≤ width →
      joinSp (endLines (wrapLoop width lines current ws))
        = joinSp (lines ++ (if current = [] then [] else [current]) ++ ws) := by
  intro ws
  induction ws with
  | nil =>
      intro lines current _ _ _
      by_cases hemp : current = []
      · subst hemp
        simp [endLines, wrapLoop]
      · simp [endLines, wrapLoop, hemp]
  | cons w ws ih =>
      intro lines current hle hne hcur
      have hw : w.length ≤ width := hle w (by simp)
      have hwne : w ≠ [] := hne w (by simp)
      have hle' : ∀ x ∈ ws, x.length ≤ width := fun x hx => hle x (by simp [hx])
      have hne' : ∀ x ∈ ws, x ≠ [] := fun x hx => hne x (by simp [hx])
      by_cases hfit : current.length + 1 + w.length ≤ width
      · by_cases hemp : current = []
        · subst hemp
          have hstep : wrapLoop width lines [] (w :: ws) = wrapLoop width lines w ws := by
            simp only [wrapLoop]
            rw [if_pos hfit]
            simp
          rw [hstep, ih lines w hle' hne' hw, if_neg hwne]
          simp
        · have hstep : wrapLoop width lines current (w :: ws)
              = wrapLoop width lines (current ++ ' ' :: w) ws := by
            simp [wrapLoop, hfit, hemp]
          rw [hstep, ih lines (current ++ ' ' :: w) hle' hne' (by simp; omega)]
          rw [if_neg (by simp : ¬(current ++ ' ' :: w = [])), if_neg hemp]
          rw [List.append_assoc, List.append_assoc, List.singleton_append,
            List.singleton_append]
          exact joinSp_merge lines current w ws
      · by_cases hemp : current = []
        · subst hemp
          have hwlen : w.length = width := by
            simp only [List.length_nil, Nat.zero_add] at hfit
            omega
          have hstep : wrapLoop width lines [] (w :: ws)
              = wrapLoop width (lines ++ [w.take width]) (w.drop width) ws := by
            simp only [wrapLoop]
            rw [if_neg hfit]
            simp
          rw [hstep, ih (lines ++ [w.take width]) (w.drop width) hle' hne' (by simp; omega)]
          rw [List.take_of_length_le (by omega), List.drop_eq_nil_of_le (by omega)]
          simp
        · have hstep : wrapLoop width lines current (w :: ws)
              = wrapLoop width (lines ++ [current]) w ws := by
            simp [wrapLoop, hfit, hemp]
          rw [hstep, ih (lines ++ [current]) w hle' hne' hw]
          rw [if_neg hwne, if_neg hemp]
          simp

/-- C3 (amended): `wrap_text` is a total function (no exception); when
every whitespace-separated word of the input has length at most `width`,
no returned line exceeds `width` characters.  A word longer than `width`
is hard-cut only when it starts a fresh line, and only once: its first
`width` characters become a line and the remainder is carried unbroken, so
an overlong word can still surface as a returned line longer than `width`
(contrary to the claim's `chunks of length at most W`). -/
theorem wrap_text_line_bound (text : List Char) (width : Nat) :
    ((∀ w ∈ pySplit text, w.length ≤ width) →
      ∀ l ∈ wrap_text text width, l.length ≤ width)
    ∧ (pySplit text = [text] → width < text.length →
      wrap_text text width = [text.take width, text.drop width]) := by
  constructor
  · intro hws l hl
    by_cases ht : text = []
    · subst ht
      simp [wrap_text] at hl
      subst hl
      simp
    · have hinv := wrapLoop_length width (pySplit text) [] [] hws (by simp) (by simp)
      unfold wrap_text at hl
      rw [if_neg ht] at hl
      by_cases he : endLines (wrapLoop width [] [] (pySplit text)) = []
      · rw [if_pos he] at hl
        simp at hl
        subst hl
        simp
      · rw [if_neg he] at hl
        unfold endLines at hl
        by_cases h2 : (wrapLoop width [] [] (pySplit text)).2 = []
        · rw [if_pos h2] at hl
          exact hinv.1 l hl
        · rw [if_neg h2] at hl
          rcases List.mem_append.mp hl with h | h
          · exact hinv.1 l h
          · simp only [List.mem_singleton] at h
            subst h
            exact hinv.2
  · intro hsingle hlong
    have ht : text ≠ [] := by
      intro h
      subst h
      simp [pySplit, pySplitAux] at hsingle
    unfold wrap_text
    rw [if_neg ht, hsingle]
    have hnofit : ¬ ([] : List Char).length + 1 + text.length ≤ width := by
      simp
      omega
    have hstep : wrapLoop width [] [] [text]
        = ([[text.take width]].flatten.map id ++ [], text.drop width) := by
      simp only [wrapLoop]
      rw [if_neg hnofit]
      simp
    rw [hstep]
    have hdne : text.drop width ≠ [] := by
      intro h
      have h2 := congrArg List.length h
      simp at h2
      omega
    unfold endLines
    rw [if_neg hdne]
    simp

theorem wrap_text_line_bound_witness :
    ((wrap_text ("ab cd".data) 5).headD []).length ≤ 5
    ∧ wrap_text ("abcdefg".data) 3 = ["abc".data, "defg".data] :=
  ⟨(wrap_text_line_bound ("ab cd".data) 5).1 (by decide) _ (by decide),
   (wrap_text_line_bound ("abcdefg".data) 3).2 (by decide) (by decide)⟩

/-- C3 counterexample: `wrap_text("abcdefg", 3)` returns the line `defg`
of length 4 > 3 — the single long word is cut only once, not into chunks
of length at most 3. -/
theorem wrap_text_overlong_cex :
    ¬ (∀ l ∈ wrap_text ("abcdefg".data) 3, l.length ≤ 3) := by decide

/-- C6 (amended): `wrap_text` of the empty string is `[""]`; and whenever
every whitespace-separated word has length at most `width` (so that no
hard cut occurs), joining the returned lines with single spaces equals the
whitespace-collapsed input (its words joined by single spaces).  A hard
cut inserts a space where the word was severed, so the unrestricted claim
fails. -/
theorem wrap_text_join (text : List Char) (width : Nat) (hwidth : 1 ≤ width)
    (hws : ∀ w ∈ pySplit text, w.length ≤ width) :
    wrap_text [] width = [[]]
    ∧ joinSp (wrap_text text width) = joinSp (pySplit text) := by
  constructor
  · simp [wrap_text]
  · by_cases ht : text = []
    · subst ht
      simp [wrap_text, pySplit, pySplitAux, joinSp]
    · have hjoin := wrapLoop_join width (pySplit text) [] []
        hws (pySplit_ne_nil text) (by simp)
      simp only [List.nil_append, if_pos rfl] at hjoin
      unfold wrap_text
      rw [if_neg ht]
      by_cases he : endLines (wrapLoop width [] [] (pySplit text)) = []
      · rw [if_pos he]
        rw [he] at hjoin
        simpa [joinSp] using hjoin
      · rw [if_neg he]
        simpa using hjoin

theorem wrap_text_join_witness :
    (1 : Nat) ≤ 5
    ∧ joinSp (wrap_text ("hello world foo".data) 5)
        = joinSp (pySplit ("hello world foo".data)) :=
  ⟨by decide,
   (wrap_text_join ("hello world foo".data) 5 (by decide) (by decide)).2⟩

/-- C6 counterexample: `wrap_text("abcd", 3)` returns `["abc", "d"]`;
joined with a space this is `abc d`, not the whitespace-collapsed original
`abcd` — the hard cut inserted a space. -/
theorem wrap_text_join_cex :
    ¬ (joinSp (wrap_text ("abcd".data) 3) = joinSp (pySplit ("abcd".data))) := by
  decide

/-! ## C1: exact interior width of bordered output -/

theorem noEsc_padTail (pad : Nat) : noEsc (List.replicate pad ' ' ++ [' ', '║']) := by
  intro c hc
  rcases List.mem_append.mp hc with hc | hc
  · rw [List.eq_of_mem_replicate hc]; decide
  · rcases List.mem_cons.mp hc with rfl | hc
    · decide
    · rcases List.mem_singleton.mp hc with rfl
      decide

theorem blockedHead_padTail (pad : Nat) :
    blockedHead (List.replicate pad ' ' ++ [' ', '║']) := by
  match pad with
  | 0 => exact ⟨by decide, by decide, by decide, by decide⟩
  | p + 1 =>
      rw [List.replicate_succ, List.cons_append]
      exact ⟨by decide, by decide, by decide, by decide⟩

theorem padToHeight_facts (w h : Nat) (X : List (List Char))
    (hX : ∀ x ∈ X, x.length = w ∧ noEsc x) :
    ∀ x ∈ padToHeight w h X, x.length = w ∧ noEsc x := by
  intro x hx
  unfold padToHeight at hx
  rcases List.mem_append.mp hx with hx | hx
  · exact hX x hx
  · rw [List.eq_of_mem_replicate hx]
    refine ⟨by simp, ?_⟩
    intro c hc
    rw [List.eq_of_mem_replicate hc]
    decide

theorem normalizeLines_facts (w : Nat) (ls : List (List Char))
    (hne : ∀ l ∈ ls, noEsc l) :
    ∀ x ∈ normalizeLines w ls, x.length = w ∧ noEsc x := by
  intro x hx
  unfold normalizeLines at hx
  simp only [List.mem_map] at hx
  obtain ⟨l, hl, rfl⟩ := hx
  constructor
  · rw [pyLjust_length]
    have : (l.take w).length ≤ w := by simp
    omega
  · intro c hc
    unfold pyLjust at hc
    rcases List.mem_append.mp hc with hc | hc
    · exact hne l hl c (List.mem_of_mem_take hc)
    · rw [List.eq_of_mem_replicate hc]
      decide

theorem noEsc_append {l t : List Char} (hl : noEsc l) (ht : noEsc t) :
    noEsc (l ++ t) := by
  intro c hc
  rcases List.mem_append.mp hc with h | h
  · exact hl c h
  · exact ht c h

theorem noEsc_cons {c : Char} {l : List Char} (hc : c ≠ escChar) (hl : noEsc l) :
    noEsc (c :: l) := by
  intro x hx
  rcases List.mem_cons.mp hx with rfl | hx
  · exact hc
  · exact hl x hx

theorem panelRow_stripped_length (a b : List Char)
    (ha : a.length = 50) (hb : b.length = 60) (hna : noEsc a) (hnb : noEsc b) :
    (stripAnsi (panelRow a b)).length = 117 := by
  have hne : noEsc (panelRow a b) := by
    unfold panelRow
    exact noEsc_append
      (noEsc_append (noEsc_cons (by decide) (noEsc_cons (by decide) hna))
        (noEsc_cons (by decide) (noEsc_cons (by decide) (noEsc_cons (by decide) hnb))))
      (by decide)
  rw [stripAnsi_of_noEsc _ hne]
  unfold panelRow
  simp [ha, hb]

/-- C1 (amended): in `format_bordered_content` every emitted line whose
source line has visible length at most 113 strips to exactly the interior
width 113 plus the four border characters; input lines wider than 113 are
only padded, never truncated, so the exact-width guarantee does not hold
`regardless of the visible length of the input line` as claimed.  The
side-by-side panel rows of `display_pokemon` (whose two columns are
escape-free) always strip to exactly 113 + 4 characters. -/
theorem bordered_and_panel_exact_width
    (lines spriteLines infoLines : List (List Char))
    (hvis : ∀ l ∈ lines, visibleLen l ≤ 113)
    (hs : ∀ l ∈ spriteLines, noEsc l)
    (hi : ∀ l ∈ infoLines, noEsc l) :
    (∀ out ∈ format_bordered_content lines 113, (stripAnsi out).length = 113 + 4)
    ∧ (∀ row ∈ sideBySideRows spriteLines infoLines,
        (stripAnsi row).length = 113 + 4) := by
  constructor
  · intro out hout
    simp only [format_bordered_content, List.mem_map] at hout
    obtain ⟨line, hline, rfl⟩ := hout
    have hshape :
        ('║' :: ' ' :: (line ++ List.replicate (113 - visibleLen line) ' ')) ++ [' ', '║']
          = ['║', ' '] ++ (line ++ (List.replicate (113 - visibleLen line) ' ' ++ [' ', '║'])) := by
      simp
    rw [hshape, stripAnsi_noEsc_append _ _ (by decide : noEsc ['║', ' '])]
    rw [stripAnsi_append_blocked line _ (blockedHead_padTail _) (noEsc_padTail _)]
    have hv := hvis line hline
    unfold visibleLen at hv ⊢
    simp only [List.length_append, List.length_cons, List.length_replicate,
      List.length_nil]
    omega
  · intro row hrow
    simp only [sideBySideRows, List.mem_map] at hrow
    obtain ⟨p, hp, rfl⟩ := hrow
    have hp2 := List.of_mem_zip hp
    have hsf := padToHeight_facts 50 _ _
      (padToHeight_facts 50 20 _ (normalizeLines_facts 50 spriteLines hs)) p.1 hp2.1
    have hif := padToHeight_facts 60 _ _ (normalizeLines_facts 60 infoLines hi) p.2 hp2.2
    exact panelRow_stripped_length p.1 p.2 hsf.1 hif.1 hsf.2 hif.2

theorem bordered_and_panel_exact_width_witness :
    (stripAnsi ((format_bordered_content ["\x1b[91mFIRE\x1b[0m".data] 113).headD [])).length
      = 113 + 4
    ∧ (stripAnsi ((sideBySideRows ["@@@".data] ["Height: 0.7m".data]).headD [])).length
      = 113 + 4 :=
  ⟨(bordered_and_panel_exact_width ["\x1b[91mFIRE\x1b[0m".data] ["@@@".data]
      ["Height: 0.7m".data] (by decide) (by decide) (by decide)).1 _ (by decide),
   (bordered_and_panel_exact_width ["\x1b[91mFIRE\x1b[0m".data] ["@@@".data]
      ["Height: 0.7m".data] (by decide) (by decide) (by decide)).2 _ (by decide)⟩

set_option maxRecDepth 4000 in
/-- C1 counterexample: a 114-character input line is padded but not
truncated, so the emitted line strips to 118 visible characters, not the
claimed exact interior width of 113 (plus 4 border characters). -/
theorem bordered_overlong_cex :
    ¬ (∀ out ∈ format_bordered_content [List.replicate 114 'a'] 113,
        (stripAnsi out).length = 113 + 4) := by
  decide

/-! ## C10: fixed visible width of colour-wrapped move fields -/

theorem typeColors_params :
    ∀ p ∈ TYPE_COLORS, ∀ c ∈ p.2.data, isAnsiParam c = true := by decide

theorem categoryColors_params :
    ∀ p ∈ CATEGORY_COLORS, ∀ c ∈ p.2.data, isAnsiParam c = true := by decide

theorem colorGet_params (table : List (String × String))
    (htab : ∀ p ∈ table, ∀ c ∈ p.2.data, isAnsiParam c = true) (k : List Char) :
    ∀ c ∈ colorGet table k, isAnsiParam c = true := by
  intro c hc
  unfold colorGet at hc
  cases hfind : table.find? (fun p => p.1.data == k) with
  | none =>
      rw [hfind] at hc
      rcases List.mem_cons.mp hc with rfl | hc
      · decide
      · rcases List.mem_singleton.mp hc with rfl
        decide
  | some p =>
      rw [hfind] at hc
      exact htab p (List.mem_of_find?_eq_some hfind) c hc

theorem m_not_mem_upper_body (s : List Char) :
    'm' ∉ pyLjust ((pyUpper s).take 8) 8 := by
  intro hmem
  unfold pyLjust at hmem
  rcases List.mem_append.mp hmem with h | h
  · have h2 := List.mem_of_mem_take h
    unfold pyUpper at h2
    simp only [List.mem_map] at h2
    obtain ⟨c, -, hc⟩ := h2
    exact toUpper_ne_m c hc
  · have := List.eq_of_mem_replicate h
    exact absurd this (by decide)

/-- C10 (amended): `format_move_type` returns a string of visible width
exactly 8 for every input (uppercasing removes every lowercase `m`, so no
accidental ANSI match can involve the field text); `format_move_category`
does not uppercase, so its width-8 guarantee holds for inputs free of the
escape character — an input containing a real ANSI sequence survives into
the 8-character window and is then stripped, leaving fewer than 8 visible
characters. -/
theorem move_field_visible_width (s t : List Char) (ht : noEsc t) :
    (stripAnsi (format_move_type s)).length = 8
    ∧ (stripAnsi (format_move_category t)).length = 8 := by
  constructor
  · have hform : format_move_type s
        = escChar :: '[' :: colorGet TYPE_COLORS (pyLower s)
            ++ 'm' :: (pyLjust ((pyUpper s).take 8) 8 ++ [escChar, '[', '0', 'm']) := by
      unfold format_move_type
      simp
    rw [hform,
      stripAnsi_strip_prefix _ _ (colorGet_params TYPE_COLORS typeColors_params _),
      stripAnsi_noM_reset _ (m_not_mem_upper_body s)]
    rw [pyLjust_length]
    have : ((pyUpper s).take 8).length ≤ 8 := by simp
    omega
  · have hform : format_move_category t
        = escChar :: '[' :: colorGet CATEGORY_COLORS (pyLower t)
            ++ 'm' :: (pyLjust (t.take 8) 8 ++ [escChar, '[', '0', 'm']) := by
      unfold format_move_category
      simp
    have hbody : noEsc (pyLjust (t.take 8) 8) := by
      intro c hc
      unfold pyLjust at hc
      rcases List.mem_append.mp hc with h | h
      · exact ht c (List.mem_of_mem_take h)
      · rw [List.eq_of_mem_replicate h]
        decide
    rw [hform,
      stripAnsi_strip_prefix _ _ (colorGet_params CATEGORY_COLORS categoryColors_params _),
      stripAnsi_noEsc_append _ _ hbody]
    rw [show stripAnsi [escChar, '[', '0', 'm'] = [] from rfl, List.append_nil]
    rw [pyLjust_length]
    have : (t.take 8).length ≤ 8 := by simp
    omega

theorem move_field_visible_width_witness :
    (stripAnsi (format_move_type ("fire".data))).length = 8
    ∧ (stripAnsi (format_move_category ("physical".data))).length = 8 :=
  move_field_visible_width ("fire".data) ("physical".data) (by decide)

/-- C10 counterexample: `format_move_category` applied to the string
`\x1b[91m` (a complete ANSI sequence, which the category field does not
uppercase) yields a string of visible width 3, not 8. -/
theorem move_category_visible_width_cex :
    ¬ ((stripAnsi (format_move_category ("\x1b[91m".data))).length = 8) := by
  decide
